import Mathlib

/-!
Verification of the GPIO bridge daemon (`deamon/daemon_gpio/daemon_gpio.py`).

The definitions below are a shallow embedding of the daemon's pure logic:

* `set_gpio` embeds `USBGPIOController.set_gpio` (diff suppression against
  the `current_gpio_states` cache, single `0x3A` frame for the changed pins,
  transport success threaded through as a boolean);
* `set_spi` embeds `USBGPIOController.set_spi` (bit-banged SPI with skip
  optimisation and fixed inter-step delays, counted abstractly);
* `listenStep` embeds the body of `GPIOControlDaemon.listen_gpio_controller`
  (decode-buffer accumulation, `CH<n>:<0|1>` token extraction, change
  detection against `gpio_last_states`);
* `send_buffered` / `bufAppend` embed the broadcast buffer and its flush
  (`broadcast_gpio_status` / `send_buffered_gpio_status`);
* `get_current_gpio_status` embeds the `query_status` reply builder;
* `process_spi_single` embeds the pin-configuration check of
  `GPIOControlDaemon.process_spi_queue`.

Python dicts are embedded as association lists with insertion-order update
semantics where iteration order is observable, and as functions
`Nat → Option Nat` where only `get`/`set` are used.
-/

/-- Point update of a map embedded as a function (Python `d[k] = v`). -/
def upd (f : Nat → Option Nat) (k v : Nat) : Nat → Option Nat :=
  fun x => if x = k then some v else f x

/-- Insertion-order dict update (Python `d[k] = v` on a dict rendered as an
association list): an existing key keeps its position and gets the new value,
a new key is appended at the end. -/
def dictUpdate (d : List (Nat × Nat)) (k v : Nat) : List (Nat × Nat) :=
  if d.any (fun kv => kv.1 = k) then
    d.map (fun kv => if kv.1 = k then (k, v) else kv)
  else
    d ++ [(k, v)]

/-- First-occurrence association-list lookup (Python `d.get(k)`). -/
def alookup : List (Nat × Nat) → Nat → Option Nat
  | [], _ => none
  | kv :: rest, p => if kv.1 = p then some kv.2 else alookup rest p

@[simp]
theorem upd_same (f : Nat → Option Nat) (k v : Nat) : upd f k v k = some v := by
  simp [upd]

theorem upd_other (f : Nat → Option Nat) (k v x : Nat) (h : x ≠ k) :
    upd f k v x = f x := by
  simp [upd, h]

/-- Result of one `set_gpio` call: the updated `current_gpio_states` cache,
the optional `0x3A` frame handed to `send_command`, and the returned boolean. -/
structure SetGpioRes where
  cache : Nat → Option Nat
  frame : Option (List Nat)
  ok : Bool

/-- The diff loop of `USBGPIOController.set_gpio`: for each requested
`(pin, state)` pair, compare with `current_gpio_states.get(pin)`; when the
value is new or different, record it in the `changed_states` dict and update
the cache immediately. -/
def set_gpio_fold (c : Nat → Option Nat) (changed : List (Nat × Nat)) :
    List (Nat × Nat) → (Nat → Option Nat) × List (Nat × Nat)
  | [] => (c, changed)
  | (p, v) :: rest =>
    match c p with
    | some s =>
      if s = v then set_gpio_fold c changed rest
      else set_gpio_fold (upd c p v) (dictUpdate changed p v) rest
    | none => set_gpio_fold (upd c p v) (dictUpdate changed p v) rest

/-- `USBGPIOController.set_gpio`: diff against the cache; with no changed
entries return success without writing; otherwise emit one `0x3A` frame that
carries exactly the changed `(pin, state)` pairs.  `sendOk` is the outcome of
`send_command` (the serial write). -/
def set_gpio (c : Nat → Option Nat) (pins : List (Nat × Nat)) (sendOk : Bool) :
    SetGpioRes :=
  let r := set_gpio_fold c [] pins
  if r.2 = [] then ⟨r.1, none, true⟩
  else ⟨r.1, some (0x3A :: r.2.foldr (fun pv acc => pv.1 :: pv.2 :: acc) []), sendOk⟩

theorem set_gpio_cache_eq (c : Nat → Option Nat) (pins : List (Nat × Nat))
    (sendOk : Bool) : (set_gpio c pins sendOk).cache = (set_gpio_fold c [] pins).1 := by
  unfold set_gpio
  by_cases h : (set_gpio_fold c [] pins).2 = [] <;> simp [h]

theorem dictUpdate_fresh (d : List (Nat × Nat)) (k v : Nat)
    (h : d.any (fun kv => kv.1 = k) = false) : dictUpdate d k v = d ++ [(k, v)] := by
  simp only [dictUpdate, h]
  simp

theorem set_gpio_fold_changed : ∀ (pins : List (Nat × Nat)) (c : Nat → Option Nat)
    (acc : List (Nat × Nat)),
    (pins.map Prod.fst).Nodup →
    (∀ p ∈ pins.map Prod.fst, acc.any (fun kv => kv.1 = p) = false) →
    (set_gpio_fold c acc pins).2 = acc ++ pins.filter (fun pv => ¬ c pv.1 = some pv.2)
  | [], c, acc, _, _ => by simp [set_gpio_fold]
  | (p, v) :: rest, c, acc, hnd, hacc => by
    rw [List.map_cons, List.nodup_cons] at hnd
    obtain ⟨hp, hrest⟩ := hnd
    have haccp : acc.any (fun kv => kv.1 = p) = false := hacc p (by simp)
    have hfreshrest : ∀ q ∈ rest.map Prod.fst,
        (acc ++ [(p, v)]).any (fun kv => kv.1 = q) = false := by
      intro q hq
      have h1 : acc.any (fun kv => kv.1 = q) = false := hacc q (by simp [hq])
      have h2 : p ≠ q := fun h => hp (h ▸ hq)
      simp [List.any_append, h1, h2]
    have hfilter : ∀ c' : Nat → Option Nat,
        rest.filter (fun pv => ¬ (upd c' p v) pv.1 = some pv.2) =
        rest.filter (fun pv => ¬ c' pv.1 = some pv.2) := by
      intro c'
      apply List.filter_congr
      intro pv hpv
      have : pv.1 ≠ p := by
        intro h
        have hmem1 : pv.1 ∈ rest.map Prod.fst := List.mem_map_of_mem Prod.fst hpv
        rw [h] at hmem1
        exact hp hmem1
      simp [upd_other c' p v pv.1 this]
    simp only [decide_not] at hfilter
    match hc : c p with
    | some s =>
      by_cases hs : s = v
      · subst hs
        have := set_gpio_fold_changed rest c acc hrest
          (fun q hq => hacc q (by simp [hq]))
        simp [set_gpio_fold, hc, this, List.filter_cons, hc]
      · have := set_gpio_fold_changed rest (upd c p v) (acc ++ [(p, v)]) hrest hfreshrest
        have hne : ¬ c p = some v := by simp [hc, hs]
        simp [set_gpio_fold, hc, hs, dictUpdate_fresh acc p v haccp, this,
          hfilter, List.filter_cons, hne]
    | none =>
      have := set_gpio_fold_changed rest (upd c p v) (acc ++ [(p, v)]) hrest hfreshrest
      have hne : ¬ c p = some v := by simp [hc]
      simp [set_gpio_fold, hc, dictUpdate_fresh acc p v haccp, this,
        hfilter, List.filter_cons, hne]

theorem set_gpio_fold_cache_notmem : ∀ (pins : List (Nat × Nat)) (c : Nat → Option Nat)
    (acc : List (Nat × Nat)) (q : Nat), q ∉ pins.map Prod.fst →
    (set_gpio_fold c acc pins).1 q = c q
  | [], c, acc, q, _ => rfl
  | (p, v) :: rest, c, acc, q, hq => by
    have hq1 : q ≠ p := by intro h; exact hq (by simp [h])
    have hq2 : q ∉ rest.map Prod.fst := fun h => hq (by simp [h])
    match hc : c p with
    | some s =>
      by_cases hs : s = v
      · simpa [set_gpio_fold, hc, hs] using
          set_gpio_fold_cache_notmem rest c acc q hq2
      · have := set_gpio_fold_cache_notmem rest (upd c p v) (dictUpdate acc p v) q hq2
        simp only [set_gpio_fold, hc, hs, if_false] at this ⊢
        rw [this, upd_other c p v q hq1]
    | none =>
      have := set_gpio_fold_cache_notmem rest (upd c p v) (dictUpdate acc p v) q hq2
      simp only [set_gpio_fold, hc] at this ⊢
      rw [this, upd_other c p v q hq1]

theorem set_gpio_fold_cache_mem : ∀ (pins : List (Nat × Nat)) (c : Nat → Option Nat)
    (acc : List (Nat × Nat)) (p v : Nat), (p, v) ∈ pins →
    (pins.map Prod.fst).Nodup → (set_gpio_fold c acc pins).1 p = some v
  | [], _, _, _, _, hmem, _ => by cases hmem
  | (q, w) :: rest, c, acc, p, v, hmem, hnd => by
    rw [List.map_cons, List.nodup_cons] at hnd
    obtain ⟨hq, hrest⟩ := hnd
    rcases List.mem_cons.mp hmem with heq | hmem'
    · rw [Prod.mk.injEq] at heq
      obtain ⟨rfl, rfl⟩ := heq
      match hc : c p with
      | some s =>
        by_cases hs : s = v
        · subst hs
          simpa [set_gpio_fold, hc] using
            (set_gpio_fold_cache_notmem rest c acc p hq).trans hc
        · have := set_gpio_fold_cache_notmem rest (upd c p v) (dictUpdate acc p v) p hq
          simp only [set_gpio_fold, hc, hs, if_false]
          rw [this, upd_same]
      | none =>
        have := set_gpio_fold_cache_notmem rest (upd c p v) (dictUpdate acc p v) p hq
        simp only [set_gpio_fold, hc]
        rw [this, upd_same]
    · match hc : c q with
      | some s =>
        by_cases hs : s = w
        · simpa [set_gpio_fold, hc, hs] using
            set_gpio_fold_cache_mem rest c acc p v hmem' hrest
        · simpa [set_gpio_fold, hc, hs] using
            set_gpio_fold_cache_mem rest (upd c q w) (dictUpdate acc q w) p v hmem' hrest
      | none =>
        simpa [set_gpio_fold, hc] using
          set_gpio_fold_cache_mem rest (upd c q w) (dictUpdate acc q w) p v hmem' hrest

/-- C4: a `set_gpio` call writes a frame to the transport only when at least
one requested pin value differs from the cached state; the emitted `0x3A`
frame lists exactly the changed `(pin, value)` pairs in request order, and a
call whose requested values are all already cached performs zero writes and
returns success. -/
theorem setPins_diff_suppression (c : Nat → Option Nat) (pins : List (Nat × Nat))
    (hnd : (pins.map Prod.fst).Nodup) :
    (set_gpio c pins true).frame =
      (if pins.filter (fun pv => ¬ c pv.1 = some pv.2) = [] then none
       else some (0x3A :: (pins.filter (fun pv => ¬ c pv.1 = some pv.2)).foldr
         (fun pv acc => pv.1 :: pv.2 :: acc) [])) ∧
    (set_gpio c pins true).ok = true := by
  have hch := set_gpio_fold_changed pins c [] hnd (fun p _ => rfl)
  rw [List.nil_append] at hch
  cases hr : (set_gpio_fold c [] pins).2 with
  | nil =>
    have hf : pins.filter (fun pv => ¬ c pv.1 = some pv.2) = [] := by rw [← hch, hr]
    have hg : set_gpio c pins true = ⟨(set_gpio_fold c [] pins).1, none, true⟩ := by
      rw [set_gpio]
      simp only [hr]
      simp
    rw [hg, hf]
    exact ⟨by simp, rfl⟩
  | cons a l =>
    have hf : pins.filter (fun pv => ¬ c pv.1 = some pv.2) ≠ [] := by
      rw [← hch, hr]
      simp
    have hg : set_gpio c pins true =
        ⟨(set_gpio_fold c [] pins).1,
         some (0x3A :: (set_gpio_fold c [] pins).2.foldr
           (fun pv acc => pv.1 :: pv.2 :: acc) []), true⟩ := by
      rw [set_gpio]
      simp only [hr]
      simp
    rw [hg, if_neg hf, hch]
    exact ⟨rfl, rfl⟩

theorem setPins_diff_suppression_witness :
    ((([(5, 1), (6, 0)] : List (Nat × Nat)).map Prod.fst).Nodup) ∧
    ((set_gpio (fun p => if p = 5 then some 1 else none) [(5, 1), (6, 0)] true).frame =
      (if ([(5, 1), (6, 0)] : List (Nat × Nat)).filter
            (fun pv => ¬ (fun p => if p = 5 then some 1 else none) pv.1 = some pv.2) = []
       then none
       else some (0x3A :: (([(5, 1), (6, 0)] : List (Nat × Nat)).filter
            (fun pv => ¬ (fun p => if p = 5 then some 1 else none) pv.1 = some pv.2)).foldr
         (fun pv acc => pv.1 :: pv.2 :: acc) [])) ∧
    (set_gpio (fun p => if p = 5 then some 1 else none) [(5, 1), (6, 0)] true).ok = true) :=
  ⟨by decide, setPins_diff_suppression (fun p => if p = 5 then some 1 else none)
    [(5, 1), (6, 0)] (by decide)⟩

/-- C5 counterexample: the claim says a failed transport write leaves the
cached pin state unchanged.  In the code `set_gpio` updates
`current_gpio_states` inside the diff loop, before `send_command` runs: with
pin 5 cached at 0 and a failing transport, the call reports failure yet the
cache already holds the new value 1. -/
theorem setPins_cache_poisoned_on_failed_write :
    (set_gpio (fun p => if p = 5 then some 0 else none) [(5, 1)] false).ok = false ∧
    (set_gpio (fun p => if p = 5 then some 0 else none) [(5, 1)] false).cache 5 = some 1 ∧
    (fun p => if p = 5 then some 0 else none : Nat → Option Nat) 5 = some 0 := by
  refine ⟨by decide, by decide, by decide⟩

/-- C5 amended: `set_gpio` updates the cached state for every requested pin
whose value is recorded in the diff, before and regardless of the transport
write outcome — after any call, the cache holds the requested value for each
requested pin even when the write failed. -/
theorem setPins_cache_follows_request (c : Nat → Option Nat) (pins : List (Nat × Nat))
    (sendOk : Bool) (p v : Nat) (hmem : (p, v) ∈ pins)
    (hnd : (pins.map Prod.fst).Nodup) :
    (set_gpio c pins sendOk).cache p = some v := by
  rw [set_gpio_cache_eq]
  exact set_gpio_fold_cache_mem pins c [] p v hmem hnd

theorem setPins_cache_follows_request_witness :
    ((5, 1) ∈ ([(5, 1)] : List (Nat × Nat))) ∧
    ((([(5, 1)] : List (Nat × Nat)).map Prod.fst).Nodup) ∧
    (set_gpio (fun p => if p = 5 then some 0 else none) [(5, 1)] false).cache 5 = some 1 :=
  ⟨by decide, by decide,
    setPins_cache_follows_request (fun p => if p = 5 then some 0 else none)
      [(5, 1)] false 5 1 (by decide) (by decide)⟩

/-- State threaded through one bit-banged SPI transaction
(`USBGPIOController.set_spi`, non-simulated branch): the pin-state cache of
the controller, the frames written to the transport, and the number of
`time.sleep(lag_time)` delay periods consumed so far. -/
structure SpiSt where
  cache : Nat → Option Nat
  trace : List (List Nat)
  delays : Nat

/-- A `self.set_gpio({pin: value})` call made by `set_spi`: the transport is
up, so the single-pin frame is recorded in the trace iff the diff layer
emitted it. -/
def spiWrite (st : SpiSt) (p v : Nat) : SpiSt :=
  let r := set_gpio st.cache [(p, v)] true
  { cache := r.cache, trace := st.trace ++ r.frame.toList, delays := st.delays }

/-- One `time.sleep(lag_time)` delay period. -/
def tick (st : SpiSt) : SpiSt :=
  { st with delays := st.delays + 1 }

/-- Python `int(bit)` for a digit character. -/
def charVal (c : Char) : Nat := c.toNat - 48

/-- The data-line step of one bit (`set_spi` lines around
`last_data_state`): write only when the locally tracked state is absent or
different, and consume one delay period either way. -/
def dataStep (dataPin : Nat) (a : SpiSt × Option Nat) (b : Nat) : SpiSt × Option Nat :=
  if a.2 = none ∨ ¬ a.2 = some b then (tick (spiWrite a.1 dataPin b), some b)
  else (tick a.1, a.2)

/-- First clock half-phase: `if last_clk_state is None or last_clk_state != t`
— write with no extra delay, or hold with one delay period. -/
def clkPhaseA (clkPin t : Nat) (a : SpiSt × Option Nat) : SpiSt × Option Nat :=
  if a.2 = none ∨ ¬ a.2 = some t then (spiWrite a.1 clkPin t, some t)
  else (tick a.1, a.2)

/-- Second clock half-phase: `if last_clk_state != t` — write with no extra
delay, or hold with one delay period. -/
def clkPhaseB (clkPin t : Nat) (a : SpiSt × Option Nat) : SpiSt × Option Nat :=
  if ¬ a.2 = some t then (spiWrite a.1 clkPin t, some t)
  else (tick a.1, a.2)

/-- One iteration of the `for i, bit in enumerate(data)` loop of `set_spi`:
skip spaces entirely; otherwise do the data-line step, then the clock pulse
(high-then-low when `cs_collection == "down"`, low-then-high otherwise) with
the unconditional mid-pulse and end-of-bit delays. -/
def spiBit (clkPin dataPin : Nat) (edge : String)
    (acc : SpiSt × Option Nat × Option Nat) (ch : Char) :
    SpiSt × Option Nat × Option Nat :=
  if ch = ' ' then acc
  else
    let d := dataStep dataPin (acc.1, acc.2.1) (charVal ch)
    let k :=
      if edge = "down" then
        let k1 := clkPhaseA clkPin 1 (d.1, acc.2.2)
        clkPhaseB clkPin 0 (tick k1.1, k1.2)
      else
        let k1 := clkPhaseA clkPin 0 (d.1, acc.2.2)
        clkPhaseB clkPin 1 (tick k1.1, k1.2)
    (tick k.1, d.2, k.2)

/-- `USBGPIOController.set_spi` (non-simulated): assert chip-select low,
clock every non-space bit out with the skip optimisation, deassert
chip-select high. -/
def set_spi (clkPin dataPin csPin : Nat) (data : List Char) (edge : String)
    (cache : Nat → Option Nat) : SpiSt :=
  let st0 := tick (spiWrite ⟨cache, [], 0⟩ csPin 0)
  let r := data.foldl (spiBit clkPin dataPin edge) (st0, none, none)
  tick (spiWrite r.1 csPin 1)

/-- Wire rendering of one level change as the `0x3A` frame `set_gpio`
produces for a single changed pin. -/
def frameOf (pv : Nat × Nat) : List Nat := [0x3A, pv.1, pv.2]

/-- Modelled from the spec (§4.2 `runSpiTransaction`): a level change is
recorded at the transport exactly when the line does not already hold the
requested value. -/
def lineSet (acc : (Nat → Option Nat) × List (Nat × Nat)) (p v : Nat) :
    (Nat → Option Nat) × List (Nat × Nat) :=
  if acc.1 p = some v then acc else (upd acc.1 p v, acc.2 ++ [(p, v)])

/-- Modelled from the spec (§4.2): per bit — set the data line to the bit
value, then pulse the clock in the direction implied by the edge mode,
skipping redundant writes; spaces are transmitted as nothing. -/
def spiSpecStep (clkPin dataPin : Nat) (edgeDown : Bool)
    (acc : (Nat → Option Nat) × List (Nat × Nat)) (c : Char) :
    (Nat → Option Nat) × List (Nat × Nat) :=
  if c = ' ' then acc
  else
    let acc := lineSet acc dataPin (charVal c)
    if edgeDown then lineSet (lineSet acc clkPin 1) clkPin 0
    else lineSet (lineSet acc clkPin 0) clkPin 1

/-- Modelled from the spec (§4.2, §8 SPI bit fidelity): the reference
sequence of (pin, level) changes for one transaction — chip-select asserted
low, each non-space bit's data/clock changes, chip-select deasserted high. -/
def spiSpecTrace (clkPin dataPin csPin : Nat) (data : List Char) (edgeDown : Bool)
    (line : Nat → Option Nat) : List (Nat × Nat) :=
  (lineSet (data.foldl (spiSpecStep clkPin dataPin edgeDown)
    (lineSet (line, []) csPin 0)) csPin 1).2

theorem spiWrite_eq (st : SpiSt) (p v : Nat) :
    spiWrite st p v =
      ⟨(if st.cache p = some v then st.cache else upd st.cache p v),
       st.trace ++ (if st.cache p = some v then [] else [[0x3A, p, v]]),
       st.delays⟩ := by
  match hc : st.cache p with
  | some s =>
    by_cases hs : s = v
    · subst hs
      simp [spiWrite, set_gpio, set_gpio_fold, hc]
    · have : ¬ st.cache p = some v := by simp [hc, hs]
      simp [spiWrite, set_gpio, set_gpio_fold, hc, hs, this, dictUpdate]
  | none =>
    have : ¬ st.cache p = some v := by simp [hc]
    simp [spiWrite, set_gpio, set_gpio_fold, hc, this, dictUpdate]

theorem lineSet_fst_self (acc : (Nat → Option Nat) × List (Nat × Nat)) (p v : Nat) :
    (lineSet acc p v).1 p = some v := by
  by_cases hc : acc.1 p = some v <;> simp [lineSet, hc]

theorem lineSet_fst_other (acc : (Nat → Option Nat) × List (Nat × Nat)) (p v q : Nat)
    (h : q ≠ p) : (lineSet acc p v).1 q = acc.1 q := by
  by_cases hc : acc.1 p = some v <;> simp [lineSet, hc, upd_other _ _ _ _ h]

theorem write_step_rel (st : SpiSt) (acc : (Nat → Option Nat) × List (Nat × Nat))
    (p v : Nat)
    (hc : st.cache = acc.1) (ht : st.trace = acc.2.map frameOf) :
    (spiWrite st p v).cache = (lineSet acc p v).1 ∧
    (spiWrite st p v).trace = ((lineSet acc p v).2).map frameOf := by
  obtain ⟨line, tr⟩ := acc
  simp only at hc ht
  subst hc
  rw [spiWrite_eq]
  by_cases h : st.cache p = some v <;> simp [lineSet, h, ht, frameOf]

theorem dataStep_rel (dataPin b : Nat) (st : SpiSt)
    (acc : (Nat → Option Nat) × List (Nat × Nat)) (last : Option Nat)
    (hc : st.cache = acc.1) (ht : st.trace = acc.2.map frameOf)
    (hl : last = none ∨ acc.1 dataPin = last) :
    (dataStep dataPin (st, last) b).1.cache = (lineSet acc dataPin b).1 ∧
    (dataStep dataPin (st, last) b).1.trace = ((lineSet acc dataPin b).2).map frameOf ∧
    (dataStep dataPin (st, last) b).2 = some b := by
  by_cases hcond : last = none ∨ ¬ last = some b
  · have h := write_step_rel st acc dataPin b hc ht
    simp only [dataStep, if_pos hcond, tick]
    exact ⟨h.1, h.2, by trivial⟩
  · push_neg at hcond
    obtain ⟨hn, hb⟩ := hcond
    have hline : acc.1 dataPin = some b := by
      rcases hl with h0 | h0
      · exact absurd h0 hn
      · rw [h0, hb]
    have hskip : lineSet acc dataPin b = acc := by simp [lineSet, hline]
    have hcond' : ¬ (last = none ∨ ¬ last = some b) := by
      push_neg
      exact ⟨hn, hb⟩
    simp only [dataStep, if_neg hcond', tick, hskip]
    exact ⟨hc, ht, hb⟩

theorem clkPhaseA_rel (clkPin t : Nat) (st : SpiSt)
    (acc : (Nat → Option Nat) × List (Nat × Nat)) (last : Option Nat)
    (hc : st.cache = acc.1) (ht : st.trace = acc.2.map frameOf)
    (hl : last = none ∨ acc.1 clkPin = last) :
    (clkPhaseA clkPin t (st, last)).1.cache = (lineSet acc clkPin t).1 ∧
    (clkPhaseA clkPin t (st, last)).1.trace = ((lineSet acc clkPin t).2).map frameOf ∧
    (clkPhaseA clkPin t (st, last)).2 = some t := by
  by_cases hcond : last = none ∨ ¬ last = some t
  · have h := write_step_rel st acc clkPin t hc ht
    simp only [clkPhaseA, if_pos hcond]
    exact ⟨h.1, h.2, by trivial⟩
  · push_neg at hcond
    obtain ⟨hn, hb⟩ := hcond
    have hline : acc.1 clkPin = some t := by
      rcases hl with h0 | h0
      · exact absurd h0 hn
      · rw [h0, hb]
    have hskip : lineSet acc clkPin t = acc := by simp [lineSet, hline]
    have hcond' : ¬ (last = none ∨ ¬ last = some t) := by
      push_neg
      exact ⟨hn, hb⟩
    simp only [clkPhaseA, if_neg hcond', tick, hskip]
    exact ⟨hc, ht, hb⟩

theorem clkPhaseB_rel (clkPin t : Nat) (st : SpiSt)
    (acc : (Nat → Option Nat) × List (Nat × Nat)) (last : Option Nat)
    (hc : st.cache = acc.1) (ht : st.trace = acc.2.map frameOf)
    (hl : last = none ∨ acc.1 clkPin = last) :
    (clkPhaseB clkPin t (st, last)).1.cache = (lineSet acc clkPin t).1 ∧
    (clkPhaseB clkPin t (st, last)).1.trace = ((lineSet acc clkPin t).2).map frameOf ∧
    (clkPhaseB clkPin t (st, last)).2 = some t := by
  by_cases hcond : ¬ last = some t
  · have h := write_step_rel st acc clkPin t hc ht
    simp only [clkPhaseB, if_pos hcond]
    exact ⟨h.1, h.2, by trivial⟩
  · push_neg at hcond
    have hn : last ≠ none := by rw [hcond]; exact Option.some_ne_none t
    have hline : acc.1 clkPin = some t := by
      rcases hl with h0 | h0
      · exact absurd h0 hn
      · rw [h0, hcond]
    have hskip : lineSet acc clkPin t = acc := by simp [lineSet, hline]
    have hcond' : ¬ ¬ last = some t := by
      push_neg
      exact hcond
    simp only [clkPhaseB, if_neg hcond', tick, hskip]
    exact ⟨hc, ht, hcond⟩

/-- The coupling invariant between the code state of `set_spi` and the
spec-side line state: equal caches, traces related by the frame rendering,
and the locally tracked data/clock values agreeing with the line whenever
they are set. -/
def SpiRel (clkPin dataPin : Nat) (a : SpiSt × Option Nat × Option Nat)
    (b : (Nat → Option Nat) × List (Nat × Nat)) : Prop :=
  a.1.cache = b.1 ∧ a.1.trace = b.2.map frameOf ∧
  (a.2.1 = none ∨ b.1 dataPin = a.2.1) ∧
  (a.2.2 = none ∨ b.1 clkPin = a.2.2)

theorem spiBit_rel (clkPin dataPin : Nat) (edge : String) (ed : Bool)
    (hed : edge = "down" ↔ ed = true) (hne : clkPin ≠ dataPin)
    (a : SpiSt × Option Nat × Option Nat)
    (b : (Nat → Option Nat) × List (Nat × Nat))
    (h : SpiRel clkPin dataPin a b) (ch : Char) :
    SpiRel clkPin dataPin (spiBit clkPin dataPin edge a ch)
      (spiSpecStep clkPin dataPin ed b ch) := by
  obtain ⟨st, lastD, lastC⟩ := a
  obtain ⟨hc, ht, hd, hk⟩ := h
  simp only at hc ht hd hk
  by_cases hsp : ch = ' '
  · simp only [spiBit, spiSpecStep, if_pos hsp]
    exact ⟨hc, ht, hd, hk⟩
  · obtain ⟨hc1, ht1, hd1⟩ := dataStep_rel dataPin (charVal ch) st b lastD hc ht hd
    have hself1 : (lineSet b dataPin (charVal ch)).1 dataPin = some (charVal ch) :=
      lineSet_fst_self _ _ _
    have hk1 : lastC = none ∨ (lineSet b dataPin (charVal ch)).1 clkPin = lastC := by
      rcases hk with h0 | h0
      · exact Or.inl h0
      · right
        rw [lineSet_fst_other _ _ _ _ hne]
        exact h0
    by_cases hdn : edge = "down"
    · have hedt : ed = true := hed.mp hdn
      simp only [spiBit, spiSpecStep, if_neg hsp, if_pos hdn, hedt, if_true]
      obtain ⟨hc2, ht2, hk2⟩ := clkPhaseA_rel clkPin 1
        (dataStep dataPin (st, lastD) (charVal ch)).1
        (lineSet b dataPin (charVal ch)) lastC hc1 ht1 hk1
      have hk2' : (clkPhaseA clkPin 1 ((dataStep dataPin (st, lastD) (charVal ch)).1, lastC)).2 = none ∨
          (lineSet (lineSet b dataPin (charVal ch)) clkPin 1).1 clkPin =
          (clkPhaseA clkPin 1 ((dataStep dataPin (st, lastD) (charVal ch)).1, lastC)).2 := by
        right
        rw [hk2]
        exact lineSet_fst_self _ _ _
      obtain ⟨hc3, ht3, hk3⟩ := clkPhaseB_rel clkPin 0
        (tick (clkPhaseA clkPin 1 ((dataStep dataPin (st, lastD) (charVal ch)).1, lastC)).1)
        (lineSet (lineSet b dataPin (charVal ch)) clkPin 1)
        (clkPhaseA clkPin 1 ((dataStep dataPin (st, lastD) (charVal ch)).1, lastC)).2
        (by simpa [tick] using hc2) (by simpa [tick] using ht2) hk2'
      refine ⟨by simpa [tick] using hc3, by simpa [tick] using ht3, ?_, ?_⟩
      · rw [hd1]
        right
        rw [lineSet_fst_other _ _ _ _ (Ne.symm hne), lineSet_fst_other _ _ _ _ (Ne.symm hne)]
        exact hself1
      · right
        rw [hk3]
        exact lineSet_fst_self _ _ _
    · have hedf : ed = false := by
        cases hef : ed with
        | false => rfl
        | true => exact absurd (hed.mpr hef) hdn
      simp only [spiBit, spiSpecStep, if_neg hsp, if_neg hdn, hedf, Bool.false_eq_true,
        if_false]
      obtain ⟨hc2, ht2, hk2⟩ := clkPhaseA_rel clkPin 0
        (dataStep dataPin (st, lastD) (charVal ch)).1
        (lineSet b dataPin (charVal ch)) lastC hc1 ht1 hk1
      have hk2' : (clkPhaseA clkPin 0 ((dataStep dataPin (st, lastD) (charVal ch)).1, lastC)).2 = none ∨
          (lineSet (lineSet b dataPin (charVal ch)) clkPin 0).1 clkPin =
          (clkPhaseA clkPin 0 ((dataStep dataPin (st, lastD) (charVal ch)).1, lastC)).2 := by
        right
        rw [hk2]
        exact lineSet_fst_self _ _ _
      obtain ⟨hc3, ht3, hk3⟩ := clkPhaseB_rel clkPin 1
        (tick (clkPhaseA clkPin 0 ((dataStep dataPin (st, lastD) (charVal ch)).1, lastC)).1)
        (lineSet (lineSet b dataPin (charVal ch)) clkPin 0)
        (clkPhaseA clkPin 0 ((dataStep dataPin (st, lastD) (charVal ch)).1, lastC)).2
        (by simpa [tick] using hc2) (by simpa [tick] using ht2) hk2'
      refine ⟨by simpa [tick] using hc3, by simpa [tick] using ht3, ?_, ?_⟩
      · rw [hd1]
        right
        rw [lineSet_fst_other _ _ _ _ (Ne.symm hne), lineSet_fst_other _ _ _ _ (Ne.symm hne)]
        exact hself1
      · right
        rw [hk3]
        exact lineSet_fst_self _ _ _

theorem foldl_rel {α β γ : Type _} (f : α → γ → α) (g : β → γ → β)
    (R : α → β → Prop) (hstep : ∀ a b c, R a b → R (f a c) (g b c)) :
    ∀ (l : List γ) (a : α) (b : β), R a b → R (l.foldl f a) (l.foldl g b)
  | [], _, _, h => h
  | c :: l, a, b, h => foldl_rel f g R hstep l (f a c) (g b c) (hstep a b c h)

/-- C2: for every bitstring and both edge configurations, one SPI
transaction emits at the transport exactly the reference sequence of
(pin, level) changes prescribed by the spec — chip-select asserted low
first, per bit the data line set only when it changes, the clock pulsed
high-then-low for "down" and low-then-high for "up" with redundant writes
skipped, spaces transmitted as nothing, chip-select deasserted high last —
each change encoded as one `0x3A` frame. -/
theorem spi_trace_matches_spec (clkPin dataPin csPin : Nat) (data : List Char)
    (edge : String) (edgeDown : Bool) (cache : Nat → Option Nat)
    (hedge : edge = (if edgeDown then "down" else "up"))
    (hne : clkPin ≠ dataPin) :
    (set_spi clkPin dataPin csPin data edge cache).trace =
      (spiSpecTrace clkPin dataPin csPin data edgeDown cache).map frameOf := by
  have hed : edge = "down" ↔ edgeDown = true := by
    subst hedge
    cases edgeDown <;> simp
  have h0 := write_step_rel ⟨cache, [], 0⟩ (cache, []) csPin 0 rfl (by simp)
  have hrel0 : SpiRel clkPin dataPin
      (tick (spiWrite ⟨cache, [], 0⟩ csPin 0), none, none)
      (lineSet (cache, []) csPin 0) :=
    ⟨by simpa [tick] using h0.1, by simpa [tick] using h0.2, Or.inl rfl, Or.inl rfl⟩
  have hrelF := foldl_rel (spiBit clkPin dataPin edge)
    (spiSpecStep clkPin dataPin edgeDown) (SpiRel clkPin dataPin)
    (fun a b c h => spiBit_rel clkPin dataPin edge edgeDown hed hne a b h c)
    data _ _ hrel0
  obtain ⟨hcf, htf, -, -⟩ := hrelF
  have hfin := write_step_rel
    (data.foldl (spiBit clkPin dataPin edge)
      (tick (spiWrite ⟨cache, [], 0⟩ csPin 0), none, none)).1
    (data.foldl (spiSpecStep clkPin dataPin edgeDown) (lineSet (cache, []) csPin 0))
    csPin 1 hcf htf
  simp only [set_spi, spiSpecTrace, tick]
  exact hfin.2

theorem spi_trace_matches_spec_witness :
    ("down" = (if true then "down" else "up")) ∧ ((1 : Nat) ≠ 2) ∧
    (set_spi 1 2 3 ['1', '0', ' ', '1'] "down" (fun _ => none)).trace =
      (spiSpecTrace 1 2 3 ['1', '0', ' ', '1'] true (fun _ => none)).map frameOf :=
  ⟨by decide, by decide,
    spi_trace_matches_spec 1 2 3 ['1', '0', ' ', '1'] "down" true (fun _ => none)
      (by decide) (by decide)⟩

theorem spiWrite_delays (st : SpiSt) (p v : Nat) :
    (spiWrite st p v).delays = st.delays := by
  rw [spiWrite_eq]

theorem dataStep_delays (dataPin b : Nat) (st : SpiSt) (last : Option Nat) :
    (dataStep dataPin (st, last) b).1.delays = st.delays + 1 := by
  by_cases hcond : last = none ∨ ¬ last = some b <;>
    simp [dataStep, hcond, tick, spiWrite_delays]

theorem spiBit_delays (clkPin dataPin : Nat) (edge : String)
    (a : SpiSt × Option Nat × Option Nat) (ch : Char)
    (hC : a.2.2 = none ∨ a.2.2 = some (if edge = "down" then 0 else 1)) :
    (spiBit clkPin dataPin edge a ch).1.delays =
      a.1.delays + (if ch = ' ' then 0 else 3) ∧
    ((spiBit clkPin dataPin edge a ch).2.2 = none ∨
     (spiBit clkPin dataPin edge a ch).2.2 =
       some (if edge = "down" then 0 else 1)) := by
  obtain ⟨st, lastD, lastC⟩ := a
  simp only at hC
  by_cases hsp : ch = ' '
  · constructor
    · simp [spiBit, hsp]
    · simpa [spiBit, hsp] using hC
  · by_cases hdn : edge = "down"
    · have hC0 : lastC = none ∨ lastC = some 0 := by simpa [hdn] using hC
      have hcondA : lastC = none ∨ ¬ lastC = some 1 := by
        rcases hC0 with h0 | h0
        · exact Or.inl h0
        · right
          rw [h0]
          simp
      have hA : clkPhaseA clkPin 1 ((dataStep dataPin (st, lastD) (charVal ch)).1, lastC) =
          (spiWrite (dataStep dataPin (st, lastD) (charVal ch)).1 clkPin 1, some 1) := by
        simp only [clkPhaseA]
        rw [if_pos hcondA]
      have hB : clkPhaseB clkPin 0
          (tick (spiWrite (dataStep dataPin (st, lastD) (charVal ch)).1 clkPin 1), some 1) =
          (spiWrite (tick (spiWrite (dataStep dataPin (st, lastD) (charVal ch)).1 clkPin 1))
            clkPin 0, some 0) := by
        simp only [clkPhaseB]
        rw [if_pos (by simp)]
      constructor
      · simp only [spiBit, if_neg hsp, if_pos hdn, hA, hB]
        simp [tick, spiWrite_delays, dataStep_delays, hsp]
      · simp [spiBit, if_neg hsp, if_pos hdn, hA, hB, hdn]
    · have hC1 : lastC = none ∨ lastC = some 1 := by simpa [hdn] using hC
      have hcondA : lastC = none ∨ ¬ lastC = some 0 := by
        rcases hC1 with h0 | h0
        · exact Or.inl h0
        · right
          rw [h0]
          simp
      have hA : clkPhaseA clkPin 0 ((dataStep dataPin (st, lastD) (charVal ch)).1, lastC) =
          (spiWrite (dataStep dataPin (st, lastD) (charVal ch)).1 clkPin 0, some 0) := by
        simp only [clkPhaseA]
        rw [if_pos hcondA]
      have hB : clkPhaseB clkPin 1
          (tick (spiWrite (dataStep dataPin (st, lastD) (charVal ch)).1 clkPin 0), some 0) =
          (spiWrite (tick (spiWrite (dataStep dataPin (st, lastD) (charVal ch)).1 clkPin 0))
            clkPin 1, some 1) := by
        simp only [clkPhaseB]
        rw [if_pos (by simp)]
      constructor
      · simp only [spiBit, if_neg hsp, if_neg hdn, hA, hB]
        simp [tick, spiWrite_delays, dataStep_delays, hsp]
      · simp [spiBit, if_neg hsp, if_neg hdn, hA, hB, hdn]

theorem spi_fold_delays (clkPin dataPin : Nat) (edge : String) :
    ∀ (data : List Char) (a : SpiSt × Option Nat × Option Nat),
    (a.2.2 = none ∨ a.2.2 = some (if edge = "down" then 0 else 1)) →
    (data.foldl (spiBit clkPin dataPin edge) a).1.delays =
      a.1.delays + 3 * (data.filter (fun c => ¬ c = ' ')).length
  | [], a, _ => by simp
  | ch :: rest, a, h => by
    obtain ⟨h1, h2⟩ := spiBit_delays clkPin dataPin edge a ch h
    have hrec := spi_fold_delays clkPin dataPin edge rest
      (spiBit clkPin dataPin edge a ch) h2
    simp only [List.foldl_cons]
    rw [hrec, h1]
    by_cases hsp : ch = ' '
    · simp [hsp, List.filter_cons]
    · simp [hsp, List.filter_cons]
      omega

/-- C3: within one SPI transaction the consumed delay is a function of the
number of transmitted (non-space) bits alone — `2 + 3·n` delay periods for
`n` bits — independent of the bit values, the edge mode, and the initial
cache, i.e. independent of which pin writes were performed and which were
skipped: every step costs the same fixed inter-bit delay either way. -/
theorem spi_fixed_delay_per_bit (clkPin dataPin csPin : Nat) (data : List Char)
    (edge : String) (cache : Nat → Option Nat) :
    (set_spi clkPin dataPin csPin data edge cache).delays =
      2 + 3 * (data.filter (fun c => ¬ c = ' ')).length := by
  have h := spi_fold_delays clkPin dataPin edge data
    (tick (spiWrite ⟨cache, [], 0⟩ csPin 0), none, none) (Or.inl rfl)
  have hfin : (set_spi clkPin dataPin csPin data edge cache).delays =
      (data.foldl (spiBit clkPin dataPin edge)
        (tick (spiWrite ⟨cache, [], 0⟩ csPin 0), none, none)).1.delays + 1 := by
    simp [set_spi, tick, spiWrite_delays]
  rw [hfin, h]
  simp [tick, spiWrite_delays]
  omega

/-- Python truthiness of `spi_pins.get(key)`: `None` and the integer `0` are
falsy, any other integer is truthy. -/
def truthy : Option Nat → Bool
  | none => false
  | some n => decide (n ≠ 0)

/-- Outcome of one single-bus SPI task in `GPIOControlDaemon.process_spi_queue`. -/
inductive SpiOutcome where
  | executed (clkPin dataPin csPin : Nat) (result : SpiSt)
  | missingPinConfigError (spiNum : Nat)

/-- The single-bus branch of `GPIOControlDaemon.process_spi_queue`: look up
`clk_<n>`, `data_<n>`, `cs_<n>` in the controller's `spi_pins` dict and run
the transaction only when `clk_pin and data_pin and cs_pin` is truthy,
otherwise log the missing-pin-configuration error. -/
def process_spi_single (spiPins : String → Option Nat) (spiNum : Nat)
    (spiData : List Char) (csCollection : String) (cache : Nat → Option Nat) :
    SpiOutcome :=
  let clk := spiPins ("clk_" ++ toString spiNum)
  let dat := spiPins ("data_" ++ toString spiNum)
  let cs := spiPins ("cs_" ++ toString spiNum)
  if truthy clk && truthy dat && truthy cs then
    .executed (clk.getD 0) (dat.getD 0) (cs.getD 0)
      (set_spi (clk.getD 0) (dat.getD 0) (cs.getD 0) spiData csCollection cache)
  else
    .missingPinConfigError spiNum

/-- C9: if any of the three pins configured for an SPI bus index is the
number 0, the task is treated as having missing pin configuration — the
transaction is never executed and the error path is taken — because the
code tests pin presence by numeric truthiness (`if clk_pin and data_pin and
cs_pin`) rather than key existence. -/
theorem spi_zero_pin_treated_as_missing (spiPins : String → Option Nat)
    (spiNum : Nat) (spiData : List Char) (csCollection : String)
    (cache : Nat → Option Nat)
    (h : spiPins ("clk_" ++ toString spiNum) = some 0 ∨
         spiPins ("data_" ++ toString spiNum) = some 0 ∨
         spiPins ("cs_" ++ toString spiNum) = some 0) :
    process_spi_single spiPins spiNum spiData csCollection cache =
      .missingPinConfigError spiNum := by
  rcases h with h0 | h0 | h0 <;> simp [process_spi_single, truthy, h0]

theorem spi_zero_pin_treated_as_missing_witness :
    ((fun s => if s = "clk_1" then some 0 else some 7 : String → Option Nat)
        ("clk_" ++ toString 1) = some 0 ∨
     (fun s => if s = "clk_1" then some 0 else some 7 : String → Option Nat)
        ("data_" ++ toString 1) = some 0 ∨
     (fun s => if s = "clk_1" then some 0 else some 7 : String → Option Nat)
        ("cs_" ++ toString 1) = some 0) ∧
    process_spi_single (fun s => if s = "clk_1" then some 0 else some 7) 1
      ['1'] "down" (fun _ => none) = .missingPinConfigError 1 :=
  ⟨by decide,
    spi_zero_pin_treated_as_missing (fun s => if s = "clk_1" then some 0 else some 7)
      1 ['1'] "down" (fun _ => none) (by decide)⟩

/-- Characters stripped by Python `str.strip()`. -/
def isPySpace (c : Char) : Bool :=
  c = ' ' ∨ c = '\t' ∨ c = '\n' ∨ c = '\r' ∨ c = Char.ofNat 11 ∨ c = Char.ofNat 12

/-- Python `str.strip()` on a character list. -/
def pyStrip (cs : List Char) : List Char :=
  ((cs.dropWhile isPySpace).reverse.dropWhile isPySpace).reverse

/-- `response_data.decode(...).replace('\n', '').replace('\r', '').strip()`
from `listen_gpio_controller`. -/
def cleanResponse (s : String) : List Char :=
  pyStrip (s.toList.filter (fun c => ¬ (c = '\n' ∨ c = '\r')))

/-- Decimal value of a digit run (what `int(gpio_num)` computes on the
digits captured by `CH(\d+)`). -/
def digitsToNat (ds : List Char) : Nat :=
  ds.foldl (fun n c => n * 10 + (c.toNat - 48)) 0

/-- Try to match the regex `CH(\d+):([01])` at the head of the character
list; on success return the pin number, the bit and the matched length.
The greedy `\d+` followed by the mandatory `:` admits no backtracking, so
maximal digit munch is exact. -/
def matchToken (cs : List Char) : Option (Nat × Nat × Nat) :=
  match cs with
  | 'C' :: 'H' :: rest =>
    let ds := rest.takeWhile (fun c => c.isDigit)
    if ds = [] then none
    else
      match rest.drop ds.length with
      | ':' :: b :: _ =>
        if b = '0' ∨ b = '1' then some (digitsToNat ds, charVal b, 4 + ds.length)
        else none
      | _ => none
  | _ => none

/-- Left-to-right non-overlapping scan of `re.findall(r'CH(\d+):([01])', buffer)`
(and, through the recorded end positions, of the `re.finditer` pass that
computes `last_match_end`).  The fuel argument bounds the number of scan
steps; each step consumes at least one character, so `cs.length` suffices. -/
def scanAux : Nat → List Char → Nat → List ((Nat × Nat) × Nat)
  | 0, _, _ => []
  | _ + 1, [], _ => []
  | fuel + 1, c :: rest, pos =>
    match matchToken (c :: rest) with
    | some (pin, bit, len) =>
      ((pin, bit), pos + len) :: scanAux fuel ((c :: rest).drop len) (pos + len)
    | none => scanAux fuel rest (pos + 1)

/-- All regex matches of the decode buffer, with their end positions. -/
def scanTokens (cs : List Char) : List ((Nat × Nat) × Nat) :=
  scanAux cs.length cs 0

/-- The `(pin, bit)` tokens of `re.findall` in match order. -/
def extractTokens (cs : List Char) : List (Nat × Nat) :=
  (scanTokens cs).map Prod.fst

/-- The `gpio_states` dict built from the matches: Python dict insertion
with int keys, so a repeated pin keeps its first position and takes the last
bit. -/
def buildStates (ts : List (Nat × Nat)) : List (Nat × Nat) :=
  ts.foldl (fun d pv => dictUpdate d pv.1 pv.2) []

/-- The change-detection loop over `gpio_states.items()`: a ChangeEvent
`(pin, bit)` is emitted only when `gpio_last_states` holds a previous value
for the pin that differs from the new one; the previous-value map is updated
for every entry. -/
def detectChanges (last : Nat → Option Nat) :
    List (Nat × Nat) → (Nat → Option Nat) × List (Nat × Nat)
  | [] => (last, [])
  | (p, cur) :: rest =>
    let emit : Bool :=
      match last p with
      | some lv => decide (¬ lv = cur)
      | none => false
    let r := detectChanges (upd last p cur) rest
    (r.1, (if emit then [(p, cur)] else []) ++ r.2)

/-- Per-controller listener state: the persistent decode buffer
(`controller.data_buffer`), the previous observed values
(`gpio_last_states[alias]`) and the current observed values
(`current_gpio_states[alias]`). -/
structure ListenSt where
  buffer : List Char
  last : Nat → Option Nat
  current : Nat → Option Nat

/-- One iteration of `listen_gpio_controller` upon reading `input`: append
the cleaned bytes to the decode buffer; if any complete `CH<n>:<0|1>` token
matches, fold the matches into a per-pin dict, update the current-state map,
trim the buffer after the last complete match, and emit a ChangeEvent for
every pin whose (collapsed) new bit differs from its previously observed
value.  Returns the new state and the emitted `(pin, bit)` events. -/
def listenStep (st : ListenSt) (input : String) : ListenSt × List (Nat × Nat) :=
  let buf := st.buffer ++ cleanResponse input
  let toks := extractTokens buf
  if toks = [] then (⟨buf, st.last, st.current⟩, [])
  else
    let states := buildStates toks
    let current2 := states.foldl (fun f pv => upd f pv.1 pv.2) st.current
    let lastEnd := (((scanTokens buf).getLast?).map Prod.snd).getD 0
    let buf2 := if 0 < lastEnd then buf.drop lastEnd else buf
    let r := detectChanges st.last states
    (⟨buf2, r.1, current2⟩, r.2)

/-- Spec-side notion for C10: the bit of the LAST token for a given pin in a
batch of extracted tokens, if any. -/
def lastTokenBit : List (Nat × Nat) → Nat → Option Nat
  | [], _ => none
  | t :: rest, p =>
    match lastTokenBit rest p with
    | some b => some b
    | none => if t.1 = p then some t.2 else none

theorem listenStep_read1 (f g : Nat → Option Nat) (h1 : f 1 = some 1) :
    listenStep ⟨[], f, g⟩ "CH1:0CH2:" =
      (⟨['C', 'H', '2', ':'], upd f 1 0, upd g 1 0⟩, [(1, 0)]) := by
  have hbuf : cleanResponse "CH1:0CH2:" = ['C', 'H', '1', ':', '0', 'C', 'H', '2', ':'] := by
    decide
  have hscan : scanTokens ['C', 'H', '1', ':', '0', 'C', 'H', '2', ':'] = [((1, 0), 5)] := by
    decide
  have hd1 : digitsToNat ['1'] = 1 := by decide
  have hc0 : charVal '0' = 0 := by decide
  simp [listenStep, extractTokens, hbuf, hscan, hd1, hc0, buildStates,
    dictUpdate, detectChanges, h1]

theorem listenStep_read2 (f g : Nat → Option Nat) (h2 : f 2 = some 0)
    (h3 : f 3 = some 1) :
    (listenStep ⟨['C', 'H', '2', ':'], f, g⟩ "1CH3:0").2 = [(2, 1), (3, 0)] := by
  have hbuf : cleanResponse "1CH3:0" = ['1', 'C', 'H', '3', ':', '0'] := by decide
  have hscan : scanTokens ['C', 'H', '2', ':', '1', 'C', 'H', '3', ':', '0'] =
      [((2, 1), 5), ((3, 0), 10)] := by decide
  have hd2 : digitsToNat ['2'] = 2 := by decide
  have hd3 : digitsToNat ['3'] = 3 := by decide
  have hc0 : charVal '0' = 0 := by decide
  have hc1 : charVal '1' = 1 := by decide
  simp [listenStep, extractTokens, hbuf, hscan, hd2, hd3, hc0, hc1, buildStates,
    dictUpdate, detectChanges, h2, h3, upd]

/-- C1 counterexample: on a monitor controller with no previously observed
pin values — `gpio_last_states` empty, as at listener start — feeding the
decode buffer `"CH1:0CH2:"` then `"1CH3:0"` emits ZERO ChangeEvents, not
three: `listen_gpio_controller` only reports a change when
`last_state is not None`, so a first observation never produces an event. -/
theorem telemetry_split_fresh_yields_no_events :
    (listenStep ⟨[], fun _ => none, fun _ => none⟩ "CH1:0CH2:").2 ++
      (listenStep (listenStep ⟨[], fun _ => none, fun _ => none⟩ "CH1:0CH2:").1
        "1CH3:0").2 = [] ∧
    ([] : List (Nat × Nat)) ≠ [(1, 0), (2, 1), (3, 0)] := by
  constructor
  · decide
  · decide

/-- C1 amended: feeding the decode buffer `"CH1:0CH2:"` then `"1CH3:0"`
across two reads extracts exactly the three tokens `1:0`, `2:1`, `3:0` with
none lost or duplicated at the split, and — provided each of pins 1, 2, 3
already has a previously observed value differing from the incoming bit
(here `1↦1`, `2↦0`, `3↦1`) — yields exactly three ChangeEvents, one per
token, in arrival order; with no previous observations it yields none. -/
theorem telemetry_split_three_changes (f g : Nat → Option Nat)
    (h1 : f 1 = some 1) (h2 : f 2 = some 0) (h3 : f 3 = some 1) :
    (listenStep ⟨[], f, g⟩ "CH1:0CH2:").2 = [(1, 0)] ∧
    (listenStep (listenStep ⟨[], f, g⟩ "CH1:0CH2:").1 "1CH3:0").2 =
      [(2, 1), (3, 0)] := by
  have hr1 := listenStep_read1 f g h1
  constructor
  · rw [hr1]
  · rw [hr1]
    refine listenStep_read2 (upd f 1 0) (upd g 1 0) ?_ ?_
    · rw [upd_other f 1 0 2 (by decide)]
      exact h2
    · rw [upd_other f 1 0 3 (by decide)]
      exact h3

theorem telemetry_split_three_changes_witness :
    ((fun p => if p = 1 then some 1 else if p = 2 then some 0 else
        if p = 3 then some 1 else none : Nat → Option Nat) 1 = some 1) ∧
    ((fun p => if p = 1 then some 1 else if p = 2 then some 0 else
        if p = 3 then some 1 else none : Nat → Option Nat) 2 = some 0) ∧
    ((fun p => if p = 1 then some 1 else if p = 2 then some 0 else
        if p = 3 then some 1 else none : Nat → Option Nat) 3 = some 1) ∧
    ((listenStep ⟨[], (fun p => if p = 1 then some 1 else if p = 2 then some 0 else
        if p = 3 then some 1 else none), fun _ => none⟩ "CH1:0CH2:").2 = [(1, 0)] ∧
     (listenStep (listenStep ⟨[], (fun p => if p = 1 then some 1 else
        if p = 2 then some 0 else if p = 3 then some 1 else none),
        fun _ => none⟩ "CH1:0CH2:").1 "1CH3:0").2 = [(2, 1), (3, 0)]) :=
  ⟨by decide, by decide, by decide,
    telemetry_split_three_changes
      (fun p => if p = 1 then some 1 else if p = 2 then some 0 else
        if p = 3 then some 1 else none)
      (fun _ => none) (by decide) (by decide) (by decide)⟩

theorem alookup_eq_none_of_not_mem_keys : ∀ (d : List (Nat × Nat)) (k : Nat),
    k ∉ d.map Prod.fst → alookup d k = none
  | [], _, _ => rfl
  | (a, b) :: rest, k, h => by
    have ha : ¬ a = k := by
      intro hh
      exact h (by simp [hh])
    simp [alookup, ha,
      alookup_eq_none_of_not_mem_keys rest k (fun hh => h (by simp [hh]))]

theorem alookup_append_single : ∀ (d : List (Nat × Nat)) (k v q : Nat),
    alookup (d ++ [(k, v)]) q =
      (match alookup d q with
       | some x => some x
       | none => if k = q then some v else none)
  | [], k, v, q => by simp [alookup]
  | (a, b) :: rest, k, v, q => by
    by_cases ha : a = q
    · simp [alookup, ha]
    · simp [alookup, ha, alookup_append_single rest k v q]

theorem alookup_map_ne : ∀ (d : List (Nat × Nat)) (k v q : Nat), q ≠ k →
    alookup (d.map (fun kv => if kv.1 = k then (k, v) else kv)) q = alookup d q
  | [], _, _, _, _ => rfl
  | (a, b) :: rest, k, v, q, hq => by
    by_cases ha : a = k
    · subst ha
      have hna : ¬ a = q := fun h => hq h.symm
      simp [alookup, hna, alookup_map_ne rest a v q hq]
    · simp [alookup, ha, alookup_map_ne rest k v q hq]

theorem alookup_mapUpdate (d : List (Nat × Nat)) (k v q : Nat)
    (h : d.any (fun kv => kv.1 = k) = true) :
    alookup (d.map (fun kv => if kv.1 = k then (k, v) else kv)) q =
      if q = k then some v else alookup d q := by
  by_cases hq : q = k
  · subst hq
    rw [if_pos rfl]
    induction d with
    | nil => simp at h
    | cons ab rest ih =>
      obtain ⟨a, b⟩ := ab
      by_cases ha : a = q
      · subst ha
        simp [alookup]
      · have hrest : rest.any (fun kv => kv.1 = q) = true := by
          simpa [List.any_cons, ha] using h
        simp [alookup, ha, ih hrest]
  · rw [if_neg hq, alookup_map_ne d k v q hq]

theorem alookup_dictUpdate (d : List (Nat × Nat)) (k v q : Nat) :
    alookup (dictUpdate d k v) q = if q = k then some v else alookup d q := by
  cases hmem : d.any (fun kv => kv.1 = k) with
  | true =>
    rw [dictUpdate, if_pos hmem]
    exact alookup_mapUpdate d k v q hmem
  | false =>
    rw [dictUpdate, if_neg (by simp [hmem]), alookup_append_single]
    have hnone : alookup d k = none := by
      apply alookup_eq_none_of_not_mem_keys
      intro hk
      obtain ⟨kv, hkv, hfst⟩ := List.mem_map.mp hk
      have : d.any (fun kv => kv.1 = k) = true :=
        List.any_eq_true.mpr ⟨kv, hkv, by simp [hfst]⟩
      rw [this] at hmem
      cases hmem
    by_cases hq : q = k
    · subst hq
      simp [hnone]
    · have hkq : ¬ k = q := fun h => hq h.symm
      cases h2 : alookup d q <;> simp [h2, hq, hkq]

theorem keys_dictUpdate_of_mem (d : List (Nat × Nat)) (k v : Nat)
    (h : d.any (fun kv => kv.1 = k) = true) :
    (dictUpdate d k v).map Prod.fst = d.map Prod.fst := by
  rw [dictUpdate, if_pos h, List.map_map]
  apply List.map_congr_left
  intro kv _
  by_cases hk : kv.1 = k <;> simp [hk]

theorem nodup_keys_dictUpdate (d : List (Nat × Nat)) (k v : Nat)
    (h : (d.map Prod.fst).Nodup) :
    ((dictUpdate d k v).map Prod.fst).Nodup := by
  cases hmem : d.any (fun kv => kv.1 = k) with
  | true =>
    rw [keys_dictUpdate_of_mem d k v hmem]
    exact h
  | false =>
    rw [dictUpdate, if_neg (by simp [hmem]), List.map_append]
    have hk : k ∉ d.map Prod.fst := by
      intro hkmem
      obtain ⟨kv, hkv, hfst⟩ := List.mem_map.mp hkmem
      have : d.any (fun kv => kv.1 = k) = true :=
        List.any_eq_true.mpr ⟨kv, hkv, by simp [hfst]⟩
      rw [this] at hmem
      cases hmem
    simp [List.nodup_append, h, hk]

theorem buildStates_keys_nodup (ts : List (Nat × Nat)) :
    ((buildStates ts).map Prod.fst).Nodup := by
  suffices h : ∀ d : List (Nat × Nat), (d.map Prod.fst).Nodup →
      (((ts.foldl (fun d pv => dictUpdate d pv.1 pv.2) d)).map Prod.fst).Nodup by
    exact h [] (by simp)
  induction ts with
  | nil => exact fun d hd => hd
  | cons t rest ih =>
    intro d hd
    exact ih _ (nodup_keys_dictUpdate d t.1 t.2 hd)

theorem mem_of_alookup_some : ∀ (d : List (Nat × Nat)) (p b : Nat),
    alookup d p = some b → (p, b) ∈ d
  | [], _, _, h => by simp [alookup] at h
  | (a, c) :: rest, p, b, h => by
    by_cases ha : a = p
    · subst ha
      have hcb : c = b := by simpa [alookup] using h
      subst hcb
      exact List.mem_cons_self _ _
    · simp only [alookup, if_neg ha] at h
      exact List.mem_cons_of_mem _ (mem_of_alookup_some rest p b h)

theorem alookup_of_mem_nodup : ∀ (d : List (Nat × Nat)) (p b : Nat),
    (d.map Prod.fst).Nodup → (p, b) ∈ d → alookup d p = some b
  | [], _, _, _, h => by cases h
  | (a, c) :: rest, p, b, hnd, hmem => by
    rw [List.map_cons, List.nodup_cons] at hnd
    obtain ⟨hna, hnr⟩ := hnd
    rcases List.mem_cons.mp hmem with heq | hmem2
    · rw [Prod.mk.injEq] at heq
      obtain ⟨rfl, rfl⟩ := heq
      simp [alookup]
    · have hap : ¬ a = p := by
        intro h
        subst h
        exact hna (List.mem_map.mpr ⟨(a, b), hmem2, rfl⟩)
      simp [alookup, hap, alookup_of_mem_nodup rest p b hnr hmem2]

theorem alookup_foldl_dictUpdate : ∀ (ts d : List (Nat × Nat)) (p : Nat),
    alookup (ts.foldl (fun d pv => dictUpdate d pv.1 pv.2) d) p =
      (match lastTokenBit ts p with
       | some b => some b
       | none => alookup d p)
  | [], d, p => by simp [lastTokenBit]
  | (q, v) :: rest, d, p => by
    have ih := alookup_foldl_dictUpdate rest (dictUpdate d q v) p
    simp only [List.foldl_cons, ih, lastTokenBit, alookup_dictUpdate]
    cases lastTokenBit rest p with
    | some b => rfl
    | none =>
      by_cases hpq : p = q
      · subst hpq
        simp
      · have hqp : ¬ q = p := fun h => hpq h.symm
        simp [hpq, hqp]

theorem alookup_buildStates (ts : List (Nat × Nat)) (p : Nat) :
    alookup (buildStates ts) p = lastTokenBit ts p := by
  rw [buildStates, alookup_foldl_dictUpdate]
  cases lastTokenBit ts p <;> simp [alookup]

theorem detectChanges_events : ∀ (d : List (Nat × Nat)) (last : Nat → Option Nat),
    (d.map Prod.fst).Nodup →
    (detectChanges last d).2 = d.filter (fun pv =>
      match last pv.1 with
      | some lv => decide (¬ lv = pv.2)
      | none => false)
  | [], last, _ => by simp [detectChanges]
  | (q, cur) :: rest, last, hnd => by
    rw [List.map_cons, List.nodup_cons] at hnd
    obtain ⟨hq, hnr⟩ := hnd
    have ih := detectChanges_events rest (upd last q cur) hnr
    have hcong : rest.filter (fun pv =>
        match (upd last q cur) pv.1 with
        | some lv => decide (¬ lv = pv.2)
        | none => false) =
      rest.filter (fun pv =>
        match last pv.1 with
        | some lv => decide (¬ lv = pv.2)
        | none => false) := by
      apply List.filter_congr
      intro pv hpv
      have hne : pv.1 ≠ q := by
        intro h
        exact hq (List.mem_map.mpr ⟨pv, hpv, h⟩)
      rw [upd_other last q cur pv.1 hne]
    simp only [detectChanges, ih, hcong, List.filter_cons]
    cases hl : last q with
    | none => simp [hl]
    | some lv =>
      by_cases hlv : lv = cur
      · simp [hl, hlv]
      · simp [hl, hlv]

theorem detectChanges_fst : ∀ (d : List (Nat × Nat)) (last : Nat → Option Nat) (p : Nat),
    (d.map Prod.fst).Nodup →
    (detectChanges last d).1 p =
      (match alookup d p with
       | some b => some b
       | none => last p)
  | [], last, p, _ => by simp [detectChanges, alookup]
  | (q, cur) :: rest, last, p, hnd => by
    rw [List.map_cons, List.nodup_cons] at hnd
    obtain ⟨hq, hnr⟩ := hnd
    have ih := detectChanges_fst rest (upd last q cur) p hnr
    simp only [detectChanges, ih, alookup]
    by_cases hpq : q = p
    · subst hpq
      have hnone : alookup rest q = none :=
        alookup_eq_none_of_not_mem_keys rest q hq
      simp [hnone, upd]
    · have hup : upd last q cur p = last p :=
        upd_other last q cur p (fun h => hpq h.symm)
      cases h2 : alookup rest p <;> simp [hpq, h2, hup]

/-- C10: within one read iteration of `listen_gpio_controller`, when several
tokens for the same pin are extracted from the decode buffer, only the LAST
token's bit matters: a ChangeEvent `(p, b)` is emitted iff `b` is the last
extracted bit for pin `p` and differs from the previously observed value,
and the recorded previous-value map takes the last token's bit — so
intermediate transitions inside one read batch produce no ChangeEvent. -/
theorem telemetry_batch_last_token_wins (st : ListenSt) (input : String) (p b : Nat) :
    ((p, b) ∈ (listenStep st input).2 ↔
      (lastTokenBit (extractTokens (st.buffer ++ cleanResponse input)) p = some b ∧
       ∃ v, st.last p = some v ∧ v ≠ b)) ∧
    ((listenStep st input).1.last p =
      (match lastTokenBit (extractTokens (st.buffer ++ cleanResponse input)) p with
       | some c => some c
       | none => st.last p)) := by
  by_cases htoks : extractTokens (st.buffer ++ cleanResponse input) = []
  · simp [listenStep, htoks, lastTokenBit]
  · have hnd := buildStates_keys_nodup (extractTokens (st.buffer ++ cleanResponse input))
    constructor
    · simp only [listenStep, if_neg htoks]
      rw [detectChanges_events _ _ hnd, List.mem_filter]
      constructor
      · rintro ⟨hmem, hpred⟩
        refine ⟨?_, ?_⟩
        · rw [← alookup_buildStates]
          exact alookup_of_mem_nodup _ _ _ hnd hmem
        · revert hpred
          cases hl : st.last p with
          | none => simp
          | some v =>
            intro hpred
            refine ⟨v, rfl, ?_⟩
            simpa using hpred
      · rintro ⟨hlast, v, hv, hvb⟩
        refine ⟨?_, ?_⟩
        · apply mem_of_alookup_some
          rw [alookup_buildStates]
          exact hlast
        · simp [hv, hvb]
    · simp only [listenStep, if_neg htoks]
      rw [detectChanges_fst _ _ _ hnd, alookup_buildStates]

/-- One buffered `gpio_info` entry as built by `listen_gpio_controller` and
consumed by the broadcast buffer: alias, configured default bit, and the
`change_gpio` list of `(pin, bit)` pairs. -/
structure GpioInfo where
  alias_ : String
  default_bit : Nat
  change_gpio : List (Nat × Nat)
  deriving DecidableEq

/-- The `gpio_change_buffer` dict (alias → buffered infos), with Python dict
insertion-order semantics. -/
abbrev GpioBuffer := List (String × List GpioInfo)

/-- `broadcast_gpio_status` for one `gpio_info`: create the alias entry on
first use, then append the info to the alias's pending list. -/
def bufAppend (buf : GpioBuffer) (info : GpioInfo) : GpioBuffer :=
  if buf.any (fun e => e.1 = info.alias_) then
    buf.map (fun e => if e.1 = info.alias_ then (e.1, e.2 ++ [info]) else e)
  else
    buf ++ [(info.alias_, [info])]

/-- `GPIOControlDaemon.broadcast_gpio_status`: append every `gpio_info` of
the status data to the change buffer. -/
def broadcast_gpio_status (buf : GpioBuffer) (infos : List GpioInfo) : GpioBuffer :=
  infos.foldl bufAppend buf

/-- `GPIOControlDaemon.get_next_message_id`: increment the counter under the
id lock and return the new value. -/
def get_next_message_id (counter : Nat) : Nat × Nat :=
  (counter + 1, counter + 1)

/-- One flushed `gpio_change` message (without the constant type tag). -/
structure GpioChangeMsg where
  id : Nat
  timestamp : Nat
  gpios : List GpioInfo
  deriving DecidableEq

/-- Merging one alias entry of the buffer in `send_buffered_gpio_status`:
the first buffered info's `default_bit` and the concatenation of all
buffered `change_gpio` lists in append order. -/
def combineAlias (e : String × List GpioInfo) : GpioInfo :=
  ⟨e.1, (e.2.head?.map (fun i => i.default_bit)).getD 0,
   (e.2.map (fun i => i.change_gpio)).flatten⟩

/-- `GPIOControlDaemon.send_buffered_gpio_status`: an empty buffer sends
nothing and consumes no id; otherwise merge each alias's pending changes
into one entry, clear the buffer, take the next message id and emit a single
`gpio_change` message carrying all aliases. -/
def send_buffered (counter : Nat) (buf : GpioBuffer) (t : Nat) :
    Nat × GpioBuffer × Option GpioChangeMsg :=
  if buf = [] then (counter, buf, none)
  else
    let gpios := buf.map combineAlias
    let r := get_next_message_id counter
    (r.1, [], some ⟨r.2, t, gpios⟩)

/-- A sequence of flush-timer firings against successive buffer contents,
collecting the emitted `gpio_change` messages. -/
def runFlushes : Nat → List GpioBuffer → Nat → Nat × List GpioChangeMsg
  | c, [], _ => (c, [])
  | c, b :: rest, t =>
    let r := send_buffered c b t
    let r2 := runFlushes r.1 rest t
    (r2.1, r.2.2.toList ++ r2.2)

theorem runFlushes_ids : ∀ (bufs : List GpioBuffer) (c t : Nat),
    (∀ m ∈ (runFlushes c bufs t).2, c < m.id) ∧
    ((runFlushes c bufs t).2.map (fun m => m.id)).Chain' (· < ·)
  | [], c, t => by
    constructor
    · intro m hm
      simp [runFlushes] at hm
    · simp [runFlushes]
  | b :: rest, c, t => by
    by_cases hb : b = []
    · have hsend : send_buffered c b t = (c, b, none) := by simp [send_buffered, hb]
      obtain ⟨ih1, ih2⟩ := runFlushes_ids rest c t
      simp only [runFlushes, hsend, Option.toList_none, List.nil_append]
      exact ⟨ih1, ih2⟩
    · have hsend : send_buffered c b t =
          (c + 1, [], some ⟨c + 1, t, b.map combineAlias⟩) := by
        simp [send_buffered, hb, get_next_message_id]
      obtain ⟨ih1, ih2⟩ := runFlushes_ids rest (c + 1) t
      simp only [runFlushes, hsend, Option.toList_some, List.singleton_append]
      constructor
      · intro m hm
        rcases List.mem_cons.mp hm with rfl | hm2
        · exact Nat.lt_succ_self c
        · exact Nat.lt_trans (Nat.lt_succ_self c) (ih1 m hm2)
      · rw [List.map_cons, List.chain'_cons']
        refine ⟨?_, ih2⟩
        intro y hy
        cases hmsgs : (runFlushes (c + 1) rest t).2 with
        | nil => simp [hmsgs] at hy
        | cons m0 ms =>
          rw [hmsgs] at hy
          simp only [List.map_cons, List.head?_cons, Option.mem_def,
            Option.some.injEq] at hy
          subst hy
          exact ih1 m0 (by simp [hmsgs])

/-- C6: message ids issued by one daemon instance are strictly increasing
and never reused — across any sequence of buffer flushes, each non-empty
flush (which may carry several aliases merged into one message) consumes
exactly one fresh id, and the emitted ids form a strictly increasing,
duplicate-free sequence. -/
theorem message_ids_strictly_increasing (c t : Nat) (bufs : List GpioBuffer) :
    ((runFlushes c bufs t).2.map (fun m => m.id)).Chain' (· < ·) ∧
    ((runFlushes c bufs t).2.map (fun m => m.id)).Nodup := by
  have hch := (runFlushes_ids bufs c t).2
  refine ⟨hch, ?_⟩
  have hpw := List.chain'_iff_pairwise.mp hch
  exact hpw.imp (fun h => Nat.ne_of_lt h)

theorem flatten_map_singleton : ∀ (l : List (Nat × Nat)),
    ((l.map (fun pv => [pv])).flatten) = l
  | [] => rfl
  | x :: rest => by simp [flatten_map_singleton rest]

theorem bufAppend_same : ∀ (evs : List (Nat × Nat)) (a : String) (db : Nat)
    (l : List GpioInfo),
    evs.foldl (fun b pv => bufAppend b ⟨a, db, [pv]⟩) [(a, l)] =
      [(a, l ++ evs.map (fun pv => (⟨a, db, [pv]⟩ : GpioInfo)))]
  | [], a, db, l => by simp
  | pv :: rest, a, db, l => by
    have hstep : bufAppend [(a, l)] ⟨a, db, [pv]⟩ = [(a, l ++ [⟨a, db, [pv]⟩])] := by
      simp [bufAppend]
    simp only [List.foldl_cons, hstep,
      bufAppend_same rest a db (l ++ [⟨a, db, [pv]⟩])]
    simp

/-- C7: N ChangeEvents for the same alias buffered within one flush interval
produce exactly ONE `gpio_change` message for that alias, whose
`change_gpio` array holds the N `(pin, bit)` pairs in buffer-append order —
not N separate messages. -/
theorem coalesce_same_alias (a : String) (db : Nat) (evs : List (Nat × Nat))
    (c t : Nat) (hne : evs ≠ []) :
    (send_buffered c
      (evs.foldl (fun b pv => bufAppend b ⟨a, db, [pv]⟩) []) t).2.2 =
      some ⟨c + 1, t, [⟨a, db, evs⟩]⟩ := by
  cases evs with
  | nil => exact absurd rfl hne
  | cons e rest =>
    have hfirst : bufAppend [] (⟨a, db, [e]⟩ : GpioInfo) = [(a, [⟨a, db, [e]⟩])] := by
      simp [bufAppend]
    have hbuf : (e :: rest).foldl (fun b pv => bufAppend b ⟨a, db, [pv]⟩) [] =
        [(a, (e :: rest).map (fun pv => (⟨a, db, [pv]⟩ : GpioInfo)))] := by
      rw [List.foldl_cons, hfirst, bufAppend_same rest a db [⟨a, db, [e]⟩]]
      simp
    rw [hbuf]
    simp [send_buffered, get_next_message_id, combineAlias, List.map_map,
      flatten_map_singleton, Function.comp_def]

theorem coalesce_same_alias_witness :
    (([(3, 1), (3, 0), (5, 1)] : List (Nat × Nat)) ≠ []) ∧
    (send_buffered 0
      (([(3, 1), (3, 0), (5, 1)] : List (Nat × Nat)).foldl
        (fun b pv => bufAppend b ⟨"door", 0, [pv]⟩) []) 9).2.2 =
      some ⟨0 + 1, 9, [⟨"door", 0, [(3, 1), (3, 0), (5, 1)]⟩]⟩ :=
  ⟨by decide,
    coalesce_same_alias "door" 0 [(3, 1), (3, 0), (5, 1)] 0 9 (by decide)⟩

/-- Minimal JSON value model for the wire messages. -/
inductive JVal where
  | num : Nat → JVal
  | str : String → JVal
  | arr : List JVal → JVal
  | obj : List (String × JVal) → JVal

/-- The `change_gpio` array as serialised. -/
def changeGpioJson (ch : List (Nat × Nat)) : JVal :=
  .arr (ch.map (fun pv => .obj [("gpio", .num pv.1), ("bit", .num pv.2)]))

/-- One merged alias entry as serialised in a `gpio_change` message. -/
def gpioInfoJson (g : GpioInfo) : JVal :=
  .obj [("alias", .str g.alias_), ("default_bit", .num g.default_bit),
        ("change_gpio", changeGpioJson g.change_gpio)]

/-- The `message_data` dict built by `send_buffered_gpio_status`:
`{"type": "gpio_change", "id": ..., "timestamp": ..., **combined}` — key
order type, id, timestamp, gpios. -/
def gpioChangeWire (m : GpioChangeMsg) : List (String × JVal) :=
  [("type", .str "gpio_change"), ("id", .num m.id), ("timestamp", .num m.timestamp),
   ("gpios", .arr (m.gpios.map gpioInfoJson))]

/-- The daemon state consulted by `get_current_gpio_status`: the controllers
dict (alias, mode) in insertion order, `gpio_default_states` (read with
`.get(alias, 0)`), `current_gpio_states` per alias (empty assoc list when
the alias is absent) and `gpio_last_states` (`None` when the alias is
absent). -/
structure DaemonSnap where
  controllers : List (String × String)
  gpio_default_states : String → Option Nat
  current_gpio_states : String → List (Nat × Nat)
  gpio_last_states : String → Option (List (Nat × Nat))

/-- `GPIOControlDaemon.get_current_gpio_status`: the `current_status` reply
dict — keys `type`, `timestamp`, `gpios`, one entry per geter-mode
controller, each with `alias`, `default_bit` and `current_gpio_states`
(falling back to `gpio_last_states` when the current map is empty).  Note:
no `id` key is ever added. -/
def get_current_gpio_status (d : DaemonSnap) (t : Nat) : List (String × JVal) :=
  let gpios := (d.controllers.filter (fun am => am.2 = "geter")).map (fun am =>
    let cur := d.current_gpio_states am.1
    let cur2 := if cur = [] then
        (match d.gpio_last_states am.1 with
         | some l => l
         | none => cur)
      else cur
    JVal.obj [("alias", .str am.1),
      ("default_bit", .num ((d.gpio_default_states am.1).getD 0)),
      ("current_gpio_states", .obj (cur2.map (fun pv => (toString pv.1, JVal.num pv.2))))])
  [("type", .str "current_status"), ("timestamp", .num t), ("gpios", .arr gpios)]

/-- C8 counterexample: the claim says every BroadcastMessage — including the
`current_status` reply to `query_status` — carries a monotonic `id` field.
The reply built by `get_current_gpio_status` has keys `type`, `timestamp`,
`gpios` only: no `id` at all. -/
theorem current_status_reply_has_no_id :
    ¬ ("id" ∈ (get_current_gpio_status
        ⟨[("door", "geter")], fun _ => some 0, fun _ => [(3, 1)], fun _ => none⟩
        7).map Prod.fst) := by
  decide

/-- C8 amended: `gpio_change` messages carry a process-lifetime strictly
increasing, never reused `id` (key order type, id, timestamp, gpios), while
`current_status` replies carry `type`, `timestamp`, `gpios` and NO id
field. -/
theorem broadcast_ids_and_status_keys (c t : Nat) (bufs : List GpioBuffer)
    (d : DaemonSnap) (tq : Nat) :
    (∀ m ∈ (runFlushes c bufs t).2, (gpioChangeWire m).map Prod.fst =
      ["type", "id", "timestamp", "gpios"]) ∧
    ((runFlushes c bufs t).2.map (fun m => m.id)).Chain' (· < ·) ∧
    ((get_current_gpio_status d tq).map Prod.fst = ["type", "timestamp", "gpios"]) :=
  ⟨fun _ _ => rfl, (runFlushes_ids bufs c t).2, rfl⟩
